import Mathlib

/-!
Shallow embedding of the annotation-resolution and route-synthesis engine of
the `nextgo` code generator (files `app/nextgo/cmd/codegen/api.go`,
`app/nextgo/cmd/codegen/handle_func_gen.go`, `app/nextgo/cmd/codegen/ast_parser.go`).

Go strings are modelled as Lean `String`; the few string primitives the code
uses (`strings.HasPrefix`, `strings.HasSuffix`, `strings.Split`,
`strings.Join`, lexicographic comparison) are modelled over the character
lists so that all definitions evaluate inside the kernel.  Go maps are
modelled as association lists with first-key-wins lookup and
overwrite-in-place insertion, which captures exactly the keyed contents of
the map.  Fallible functions return `Except`.
-/

namespace Nextgo

/-- Decidable equality for `Except`, used to evaluate the pipeline on
concrete inputs. -/
instance [DecidableEq ε] [DecidableEq α] : DecidableEq (Except ε α) := fun a b =>
  match a, b with
  | .ok x, .ok y => if h : x = y then .isTrue (by rw [h]) else .isFalse (by simp [h])
  | .error x, .error y => if h : x = y then .isTrue (by rw [h]) else .isFalse (by simp [h])
  | .ok _, .error _ => .isFalse (by simp)
  | .error _, .ok _ => .isFalse (by simp)

/-! ## String helpers (models of the `strings` / `path/filepath` functions used) -/

/-- Model of Go `strings.HasPrefix(s, pre)`. -/
def goHasPrefix (s pre : String) : Bool := pre.data.isPrefixOf s.data

/-- Model of Go `strings.HasSuffix(s, suf)`. -/
def goHasSuffix (s suf : String) : Bool := suf.data.isSuffixOf s.data

/-- Model of Go `strings.TrimPrefix(s, pre)`. -/
def goTrimPrefix (s pre : String) : String :=
  if goHasPrefix s pre then ⟨s.data.drop pre.data.length⟩ else s

/-- Model of Go `strings.TrimSuffix(s, suf)`. -/
def goTrimSuffix (s suf : String) : String :=
  if goHasSuffix s suf then ⟨s.data.take (s.data.length - suf.data.length)⟩ else s

/-- Splitting a character list at every occurrence of a separator character,
Go `strings.Split` semantics for a one-character separator: `[]` yields `[[]]`. -/
def splitCharsOn (sep : Char) : List Char → List (List Char)
  | [] => [[]]
  | c :: cs =>
    if c == sep then [] :: splitCharsOn sep cs
    else
      match splitCharsOn sep cs with
      | [] => [[c]]
      | s :: rest => (c :: s) :: rest

/-- Model of Go `strings.Split(s, "/")`. -/
def goSplitSlash (s : String) : List String :=
  (splitCharsOn '/' s.data).map (fun cs => ⟨cs⟩)

/-- Model of Go `strings.Split(s, ".")`. -/
def goSplitDot (s : String) : List String :=
  (splitCharsOn '.' s.data).map (fun cs => ⟨cs⟩)

/-- Model of Go `strings.Join(ss, "/")`. -/
def goJoinSlash : List String → String
  | [] => ""
  | [s] => s
  | s :: rest => s ++ "/" ++ goJoinSlash rest

/-- Directory part of Go `filepath.Split(f)`: everything up to and including
the final separator. -/
def goSplitDir (f : String) : String :=
  ⟨(f.data.reverse.dropWhile (fun c => !(c == '/'))).reverse⟩

/-- File part of Go `filepath.Split(f)`: everything after the final separator. -/
def goSplitBase (f : String) : String :=
  ⟨(f.data.reverse.takeWhile (fun c => !(c == '/'))).reverse⟩

/-- Byte-wise (here: character-wise) lexicographic strict order, as used by Go
string comparison `a < b`. -/
def charsLt : List Char → List Char → Bool
  | [], [] => false
  | [], _ :: _ => true
  | _ :: _, [] => false
  | a :: as, b :: bs => if a == b then charsLt as bs else decide (a.toNat < b.toNat)

/-- Model of Go string comparison `a < b`. -/
def goStrLt (a b : String) : Bool := charsLt a.data b.data

/-! ## Generic list helpers -/

/-- Insertion of an element into a list sorted by `le`, keeping earlier
elements first on ties of `le`. -/
def insertSortedBy (le : α → α → Bool) (x : α) : List α → List α
  | [] => [x]
  | y :: ys => if le x y then x :: y :: ys else y :: insertSortedBy le x ys

/-- Insertion sort by `le`; models the effect of `slices.SortFunc` for
comparators that order the (distinct) keys strictly. -/
def sortBy (le : α → α → Bool) : List α → List α
  | [] => []
  | x :: xs => insertSortedBy le x (sortBy le xs)

/-- Helper for `loUniq`: `seen` collects the elements already emitted. -/
def loUniqAux [BEq α] (seen : List α) : List α → List α
  | [] => []
  | x :: xs => if seen.contains x then loUniqAux seen xs else x :: loUniqAux (seen ++ [x]) xs

/-- Model of `lo.Uniq`: remove duplicates, keeping the first occurrence of
each element, preserving order. -/
def loUniq [BEq α] (l : List α) : List α := loUniqAux [] l

/-- Association-list lookup modelling a Go map read: first matching key. -/
def assocFind [BEq κ] (l : List (κ × β)) (k : κ) : Option β :=
  (l.find? (fun p => p.1 == k)).map (fun p => p.2)

/-- Association-list insertion modelling a Go map write: overwrite the
existing entry for the key, otherwise append. -/
def assocPut [BEq κ] (l : List (κ × β)) (k : κ) (v : β) : List (κ × β) :=
  match l with
  | [] => [(k, v)]
  | (k', v') :: rest => if k' == k then (k, v) :: rest else (k', v') :: assocPut rest k v

/-! ## Data model (structs of `api.go` / `handle_func_gen.go` / `ast_parser.go`) -/

/-- Model of `go/token.Position` (the two fields the engine reads). -/
structure Position where
  Filename : String := ""
  Line : Nat := 0
deriving DecidableEq, Repr

/-- Model of struct `PackageItem`. -/
structure PackageItem where
  Name : String := ""
  Path : String := ""
  Alias : String := ""
deriving DecidableEq, Repr

/-- Model of struct `Type` of `api.go` (named `Typ` because `Type` is a Lean
keyword).  The Go struct embeds `PackageItem`; the embedded value is the
`pkgItem` field here and `Typ.Path` projects its `Path`. -/
structure Typ where
  pkgItem : PackageItem := {}
  Name : String := ""
  Kind : String := ""
  Star : Bool := false
  FullName : String := ""
  PackageName : String := ""
deriving DecidableEq, Repr

/-- Projection of the embedded `PackageItem.Path`, as `t.Path` in Go. -/
def Typ.Path (t : Typ) : String := t.pkgItem.Path

/-- Model of method `Type.EqualTo`. -/
def Typ.EqualTo (t t2 : Typ) : Bool :=
  t.Name == t2.Name && t.Path == t2.Path

/-- Model of method `Type.IsPrimitive`: the switch over the fixed list of
primitive type names. -/
def Typ.IsPrimitive (t : Typ) : Bool :=
  ["string", "int", "int8", "int16", "int32", "int64", "uint", "uint8", "uint16",
   "uint32", "uint64", "float32", "float64", "bool", "byte", "rune", "uintptr",
   "error"].contains t.Name

/-- Model of struct `Mapping` (a parsed directive).  The Go field
`Label map[string]string` is modelled as an association list. -/
structure Mapping where
  Scope : String := ""
  HttpMethod : String := ""
  Label : List (String × String) := []
  Middleware : List String := []
  HttpCode : Int := 0
  PathPrefix : Bool := false
  BindQuery : List Typ := []
  BindHeader : List Typ := []
  pos : Position := {}
deriving DecidableEq, Repr

/-- Model of struct `Arg` (handler input or result value).  The Go field
`Type` is named `Ty` because `Type` is a Lean keyword; `ObjectTypes` (an
opaque `types.Object` used only by the parser) is omitted. -/
structure Arg where
  Name : String := ""
  Desc : String := ""
  Star : Bool := false
  Ty : Typ := {}
  Location : String := ""
  Package : PackageItem := {}
  PathParamName : String := ""
deriving DecidableEq, Repr

/-- Model of struct `HandleFunc` (the fields the resolution engine reads or
writes; the code-emission helper packages are omitted). -/
structure HandleFunc where
  Doc : String := ""
  Name : String := ""
  RequestArgs : List Arg := []
  ResponseResult : List Arg := []
  ResponseError : Bool := false
  With : Option Mapping := none
  WithGlobal : Option Mapping := none
  Patten : String := ""
  PackageName : String := ""
  ParentMiddlewares : List String := []
  Middlewares : List String := []
  Pos : Position := {}
  mappingMerged : Bool := false
deriving DecidableEq, Repr

/-! ## Include/exclude resolution (`resolveIncludeExclude` of `handle_func_gen.go`) -/

/-- Model of the local closure `isSub`: tokens ending in `"-"` are removal
tokens.  `strings.HasSuffix(s, "-")` for the one-character suffix. -/
def isSub (s : String) : Bool := goHasSuffix s "-"

/-- Model of the local closure `isX`: `s+"-" == x`. -/
def isX (s x : String) : Bool := s ++ "-" == x

/-- Model of the local closure `buildSub`: starting from 1 (counting the
candidate itself), add 1 per later occurrence of `s` and subtract 1 per later
occurrence of `s+"-"`. -/
def buildSub (s : String) (ss : List String) : Int :=
  ss.foldl (fun i t => if t == s then i + 1 else if isX s t then i - 1 else i) 1

/-- Body of the loop of `resolveIncludeExclude`: walking the list, each
element sees the remainder of the list (`arrs[i+1:]`). -/
def includeExcludeKept : List String → List String
  | [] => []
  | s :: rest =>
    (if isSub s then [] else if buildSub s rest > 0 then [s] else []) ++
      includeExcludeKept rest

/-- Model of `resolveIncludeExclude`: keep the non-removal tokens whose
`buildSub` count stays positive, then `lo.Uniq` the result. -/
def resolveIncludeExclude (arrs : List String) : List String :=
  loUniq (includeExcludeKept arrs)

/-! ## Mapping merge (`HandleFunc.mergeMapping` of `api.go`) -/

/-- Merge of two Go label maps: all entries of `g` written first, then all
entries of `h` (per-key override), into a fresh map. -/
def mergeLabels (g h : List (String × String)) : List (String × String) :=
  (g ++ h).foldl (fun acc p => assocPut acc p.1 p.2) []

/-- Model of method `HandleFunc.mergeMapping`: a no-op when already merged;
otherwise defaults a missing `With` to `{HttpMethod: "GET"}`, marks the
handler merged, and — only when a file-global mapping is present — prepends
the global middleware/bind lists, merges labels, and resolves the final
middleware chain from the parent middlewares plus the merged list. -/
def HandleFunc.mergeMapping (h : HandleFunc) : HandleFunc :=
  if h.mappingMerged then h
  else
    let w : Mapping := h.With.getD { HttpMethod := "GET" }
    match h.WithGlobal with
    | none => { h with With := some w, mappingMerged := true }
    | some g =>
      let w := { w with
        Middleware := g.Middleware ++ w.Middleware
        BindQuery := g.BindQuery ++ w.BindQuery
        BindHeader := g.BindHeader ++ w.BindHeader
        Label := mergeLabels g.Label w.Label }
      { h with With := some w, mappingMerged := true,
               Middlewares := resolveIncludeExclude (h.ParentMiddlewares ++ w.Middleware) }

/-! ## Binding annotations to handlers (`bindHandleFuncMapping` of `api.go`) -/

/-- Errors returned by the binding phase, with the source position carried by
the corresponding `fmt.Errorf` message. -/
inductive BindError where
  | multipleGlobalMapping (file : String) (line : Nat)
  | multipleAnnotations (file : String) (line : Nat)
deriving DecidableEq, Repr

/-- Model of the `node` struct of `ast_parser.go`: either a pointer to a
handler (modelled by its index into the handlers slice, plus its position)
or an annotation. -/
inductive Node where
  | hf (idx : Nat) (pos : Position)
  | mp (m : Mapping)
deriving DecidableEq, Repr

/-- Model of method `node.Pos`. -/
def Node.pos : Node → Position
  | .hf _ p => p
  | .mp m => m.pos

/-- Collection of the per-file global (`PerFile`) mappings: annotations whose
scope is not `"Mapping"`; a second one for the same file is the
`multiple GlobalMapping found` error, raised before any per-file scan runs. -/
def collectGlobals : List Mapping → List (String × Mapping) →
    Except BindError (List (String × Mapping))
  | [], acc => .ok acc
  | a :: rest, acc =>
    if a.Scope == "Mapping" then collectGlobals rest acc
    else if (assocFind acc a.pos.Filename).isSome then
      .error (.multipleGlobalMapping a.pos.Filename a.pos.Line)
    else collectGlobals rest (assocPut acc a.pos.Filename a)

/-- Model of the adjacent-pair scan over a file's line-sorted node list: a
`Mapping` node followed by another `Mapping` node is the
`multiple annotations found` error (named at the second node); a `Mapping`
node followed by a handler node assigns the mapping as that handler's `With`.
The scan advances one node at a time, exactly as the Go index loop does. -/
def assignPairs : List Node → Except BindError (List (Nat × Mapping))
  | [] => .ok []
  | [_] => .ok []
  | .mp _ :: .mp m' :: _ => .error (.multipleAnnotations m'.pos.Filename m'.pos.Line)
  | .mp m :: .hf idx p :: rest =>
    (assignPairs (.hf idx p :: rest)).map (fun l => (idx, m) :: l)
  | .hf _ _ :: rest => assignPairs rest

/-- Sorting a file's nodes by source line (`slices.SortFunc` with the
`a.Pos().Line - b.Pos().Line` comparator; node lines within a file are
distinct in parsed source). -/
def sortByLine (nodes : List Node) : List Node :=
  sortBy (fun a b => a.pos.Line ≤ b.pos.Line) nodes

/-- Filenames owning nodes, in first-appearance order (handlers first, then
`Mapping`-scope annotations, as the two `nodeMap` insertion loops run). -/
def nodeFilenames (handlers : List HandleFunc) (mappingAnns : List Mapping) : List String :=
  loUniq (handlers.map (fun h => h.Pos.Filename) ++ mappingAnns.map (fun m => m.pos.Filename))

/-- Nodes of one file: its handlers (as indices into the handlers slice) in
slice order, then its `Mapping`-scope annotations in slice order. -/
def nodesOfFile (handlers : List HandleFunc) (mappingAnns : List Mapping) (f : String) :
    List Node :=
  (handlers.enum.filterMap (fun p =>
      if p.2.Pos.Filename == f then some (Node.hf p.1 p.2.Pos) else none)) ++
    (mappingAnns.filterMap (fun m =>
      if m.pos.Filename == f then some (Node.mp m) else none))

/-- Replacement of the element at one index of a list. -/
def modifyAt (i : Nat) (f : α → α) : List α → List α
  | [] => []
  | x :: xs =>
    match i with
    | 0 => f x :: xs
    | j + 1 => x :: modifyAt j f xs

/-- Application of one `With` assignment produced by `assignPairs`
(the Go code writes through the `*HandleFunc` pointer into the slice). -/
def applyAssign (hs : List HandleFunc) (i : Nat) (m : Mapping) : List HandleFunc :=
  modifyAt i (fun h => { h with With := some m }) hs

/-- Model of `BindMiddlewareFile`: the annotations living in a file named
`middleware.go`, sorted by full file path with the Go string comparator. -/
def BindMiddlewareFile (anns : List Mapping) : List Mapping :=
  sortBy (fun a b => goStrLt a.pos.Filename b.pos.Filename)
    (anns.filter (fun a => goSplitBase a.pos.Filename == "middleware.go"))

/-- Model of `bindHandleFuncMapping`: collect per-file globals (erroring on a
duplicate), scan every file's line-sorted nodes assigning adjacent mappings
to handlers (erroring on adjacent mapping pairs), then give every handler the
middleware of each `middleware.go` whose directory contains the handler's
file, and its file's global mapping if any. -/
def bindHandleFuncMapping (handlers : List HandleFunc) (annotations : List Mapping) :
    Except BindError (List HandleFunc) := do
  let mappingAnns := annotations.filter (fun a => a.Scope == "Mapping")
  let globals ← collectGlobals annotations []
  let asgs ← (nodeFilenames handlers mappingAnns).foldlM (fun acc f => do
    let a ← assignPairs (sortByLine (nodesOfFile handlers mappingAnns f))
    pure (acc ++ a)) ([] : List (Nat × Mapping))
  let hs := asgs.foldl (fun hs im => applyAssign hs im.1 im.2) handlers
  let middlewareFile := BindMiddlewareFile annotations
  pure (hs.map (fun v =>
    let v := { v with ParentMiddlewares :=
      (middlewareFile.foldl (fun acc m =>
        if goHasPrefix v.Pos.Filename (goSplitDir m.pos.Filename) then acc ++ m.Middleware
        else acc) v.ParentMiddlewares) }
    match assocFind globals v.Pos.Filename with
    | some g => { v with WithGlobal := some g }
    | none => v))

/-! ## Route path synthesis and route table building (`BuildRestfulApi` of `api.go`) -/

/-- Model of `getApiPath`: strip the API root and the `.go` extension. -/
def getApiPath (pre str : String) : String := goTrimSuffix (goTrimPrefix str pre) ".go"

/-- Model of the segment-rewriting loop of `BuildRestfulApi`: split the
derived path on `/`; a segment equal to the name of any request argument
(first match in declaration order) becomes the placeholder `{name}`. -/
def synthesizePath (pre : String) (h : HandleFunc) : String :=
  let ss := goSplitSlash (getApiPath pre h.Pos.Filename)
  goJoinSlash (ss.map (fun s =>
    match h.RequestArgs.find? (fun a => a.Name == s) with
    | some a => "\x7b" ++ a.Name ++ "\x7d"
    | none => s))

/-- Nested route table: pattern to method to handler, as the Go
`map[string]map[string]HandleFunc`. -/
abbrev ApisMap := List (String × List (String × HandleFunc))

/-- Keyed read of the nested route table. -/
def apisFind (t : ApisMap) (p m : String) : Option HandleFunc :=
  (assocFind t p).bind (fun inner => assocFind inner m)

/-- Keyed write of the nested route table: `apis[path][method] = h`, creating
the inner map when absent, overwriting the slot when present. -/
def apisPut (t : ApisMap) (p m : String) (h : HandleFunc) : ApisMap :=
  match assocFind t p with
  | some inner => assocPut t p (assocPut inner m h)
  | none => assocPut t p [(m, h)]

/-- Model of struct `RestfulApi`; the schema payloads are opaque here. -/
structure RestfulApi where
  Apis : ApisMap := []
  Schemas : List (String × String) := []
deriving DecidableEq, Repr

/-- Model of struct `API` of `ast_parser.go`. -/
structure API where
  Handlers : List HandleFunc := []
  Annotations : List Mapping := []
  Schemas : List (String × String) := []
deriving DecidableEq, Repr

/-- Per-handler body of the `BuildRestfulApi` loop: default a missing `With`
to `{GET, 200}`, default an empty method to `GET`, synthesize the pattern,
and return the (pattern, method) key with the stored handler. -/
def resolveOne (pre : String) (h : HandleFunc) : String × String × HandleFunc :=
  let w : Mapping := h.With.getD { HttpMethod := "GET", HttpCode := 200 }
  let h := { h with With := some w }
  let method := if w.HttpMethod == "" then "GET" else w.HttpMethod
  let path := synthesizePath pre h
  (path, method, { h with Patten := path })

/-- The route table accumulated over the handlers in slice order. -/
def buildApis (pre : String) (handlers : List HandleFunc) : ApisMap :=
  handlers.foldl (fun t h =>
    let r := resolveOne pre h
    apisPut t r.1 r.2.1 r.2.2) []

/-- Model of `BuildRestfulApi`. -/
def BuildRestfulApi (pre : String) (api : API) : Except BindError RestfulApi := do
  let handlers ← bindHandleFuncMapping api.Handlers api.Annotations
  pure { Apis := buildApis pre handlers, Schemas := api.Schemas }

/-! ## Synthetic names (`getAutoIncrementName` / `generateVarName` of
`handle_func_gen.go`).  In the Go source `getAutoIncrementName` is a
package-level variable closing over a mutable map that lives for the whole
process; the map is made explicit here as a threaded `NameState`. -/

/-- State of the process-wide auto-increment counter map, keyed by
`filename + "." + prefix`. -/
abbrev NameState := List (String × Nat)

/-- Model of `getAutoIncrementName`: bump the counter for the key and return
the bare name the first time, `name<k>` afterwards. -/
def getAutoIncrementName (st : NameState) (filename pre : String) : String × NameState :=
  let countKey := filename ++ "." ++ pre
  let c := (assocFind st countKey).getD 0 + 1
  (if c == 1 then pre else pre ++ toString (c - 1), assocPut st countKey c)

/-- Lowercasing of the first character, `strings.ToLower(tpe[:1]) + tpe[1:]`
(Go would panic on an empty name; unreachable for parsed type names). -/
def lowerFirst (s : String) : String :=
  match s.data with
  | [] => ""
  | c :: cs => ⟨c.toLower :: cs⟩

/-- Model of `generateVarName`. -/
def generateVarName (st : NameState) (filename tpe varName : String) : String × NameState :=
  if tpe == "error" then ("err", st)
  else if varName != "" then getAutoIncrementName st filename varName
  else if tpe == "" then getAutoIncrementName st filename "_var"
  else getAutoIncrementName st filename (lowerFirst ((goSplitDot tpe).getLastD ""))

/-- Model of `autoNameHandleResponse`: give every unnamed result value a
synthetic name derived from its type. -/
def autoNameHandleResponse (h : HandleFunc) (st : NameState) : HandleFunc × NameState :=
  let r := h.ResponseResult.foldl (fun (acc : List Arg × NameState) a =>
    if a.Name != "" then (acc.1 ++ [a], acc.2)
    else
      let n := generateVarName acc.2 h.Name a.Ty.Name a.Name
      (acc.1 ++ [{ a with Name := n.1 }], n.2)) ([], st)
  ({ h with ResponseResult := r.1 }, r.2)

/-! ## Binding classifier (the request-argument loop of `generateHandler`) -/

/-- The three marker types passed through verbatim. -/
def markerTypeNames : List String :=
  ["context.Context", "net/http.Request", "net/http.ResponseWriter"]

/-- Model of the alias rewrite at the top of the loop (`pkgsCache` lookup). -/
def applyAlias (cache : List (String × PackageItem)) (a : Arg) : Arg :=
  match assocFind cache a.Package.Path with
  | some p =>
    if p.Alias != "" then
      { a with Package := p, Ty := { a.Ty with PackageName := p.Alias ++ "." ++ a.Ty.Name } }
    else a
  | none => a

/-- Model of one iteration of the request-argument loop of `generateHandler`:
marker types are skipped; otherwise the location is set to `body` and then
overridden to `query`, `header` or `path` in that order; a primitive path
parameter whose name equals the package name is renamed with a synthetic
name, keeping the original in `PathParamName`. -/
def classifyArg (cache : List (String × PackageItem)) (handleName pkgName : String)
    (w : Mapping) (a : Arg) (st : NameState) : Arg × NameState :=
  let a := applyAlias cache a
  if markerTypeNames.contains a.Ty.FullName then (a, st)
  else
    let a := { a with Location := "body" }
    if (w.BindQuery.find? (fun item => item.EqualTo a.Ty)).isSome then
      ({ a with Location := "query" }, st)
    else if (w.BindHeader.find? (fun item => item.EqualTo a.Ty)).isSome then
      ({ a with Location := "header" }, st)
    else if a.Ty.IsPrimitive then
      let a := { a with Location := "path" }
      if pkgName == a.Name then
        let n := generateVarName st handleName "" (a.Name ++ "Param")
        ({ a with PathParamName := a.Name, Name := n.1 }, n.2)
      else (a, st)
    else (a, st)

/-- The argument loop over the whole request-argument list. -/
def classifyArgs (cache : List (String × PackageItem)) (handleName pkgName : String)
    (w : Mapping) : List Arg → NameState → List Arg × NameState
  | [], st => ([], st)
  | a :: rest, st =>
    let r := classifyArg cache handleName pkgName w a st
    let rr := classifyArgs cache handleName pkgName w rest r.2
    (r.1 :: rr.1, rr.2)

/-- Model of the resolution part of `generateHandler`: merge the mapping,
auto-name the results, then classify every request argument against the
merged mapping. -/
def generateHandlerCore (pkgsImports : List PackageItem) (h : HandleFunc) (st : NameState) :
    HandleFunc × NameState :=
  let h := h.mergeMapping
  let r0 := autoNameHandleResponse h st
  let h := r0.1
  let cache := pkgsImports.foldl (fun c v => assocPut c v.Path v) []
  let w := h.With.getD {}
  let r := classifyArgs cache h.Name h.PackageName w h.RequestArgs r0.2
  ({ h with RequestArgs := r.1 }, r.2)

/-- Status code emitted by the documentation generator (`swag.go` path): the
stored `HttpCode`, with 0 rendered as 200. -/
def docStatusCode (w : Mapping) : Int :=
  if w.HttpCode == 0 then 200 else w.HttpCode

/-! ## Specification-side definition for the include/exclude algorithm.

The spec describes the keep rule by occurrence counting: a non-removal token
at index `i` is kept iff, counting the token itself as `+1` and scanning all
later elements, `#occurrences(t) - #occurrences(t+"-")` is strictly
positive; the output keeps first-seen order and drops duplicates.  This
definition transcribes that wording, to be compared with
`resolveIncludeExclude` from the source. -/

/-- Keep rule of the spec: `1 + #occ(s) - #occ(s+"-")` over the later
elements is strictly positive. -/
def specKeep (s : String) (later : List String) : Bool :=
  decide ((1 : Int) + later.count s - later.count (s ++ "-") > 0)

/-- Tokens kept by the spec's rule: walking the list, each non-removal token
sees the remainder of the list as its later elements. -/
def specKeptList : List String → List String
  | [] => []
  | s :: rest => (if !isSub s && specKeep s rest then [s] else []) ++ specKeptList rest

/-- The spec's include/exclude resolution: the kept tokens, first-seen order,
duplicates removed. -/
def specResolveIncludeExclude (arrs : List String) : List String :=
  loUniq (specKeptList arrs)

/-! ## Helper lemmas -/

theorem getLast?_append_single (l : List α) (a : α) : (l ++ [a]).getLast? = some a := by
  induction l with
  | nil => rfl
  | cons x xs ih =>
    rw [List.cons_append]
    cases h : xs ++ [a] with
    | nil => exact absurd h (by simp)
    | cons y ys => rw [List.getLast?_cons_cons, ← h, ih]

theorem string_ne_append_dash (s t : String) (h : t.data.getLast? ≠ some '-') :
    t ≠ s ++ "-" := by
  intro he
  apply h
  rw [he, String.data_append]
  exact getLast?_append_single s.data '-'

theorem append_dash_inj {s u : String} : s ++ "-" = u ++ "-" ↔ s = u := by
  constructor
  · intro h
    have hd := congrArg String.data h
    rw [String.data_append, String.data_append] at hd
    exact String.ext (List.append_cancel_right hd)
  · intro h; rw [h]

theorem self_ne_append_dash (s : String) : s ≠ s ++ "-" := by
  intro h
  have h2 := congrArg String.length h
  rw [String.length_append] at h2
  have h3 : ("-" : String).length = 1 := rfl
  omega

theorem beq_symm_str (a b : String) : (a == b) = (b == a) := by
  by_cases h : a = b
  · rw [h]
  · have h1 : (a == b) = false := by simp [h]
    have h2 : (b == a) = false := by simp [Ne.symm h]
    rw [h1, h2]

theorem find?_isSome_any (p : α → Bool) (l : List α) : (l.find? p).isSome = l.any p := by
  rw [Bool.eq_iff_iff]
  simp [List.find?_isSome, List.any_eq_true]

theorem assocFind_cons [BEq κ] (p : κ × β) (l : List (κ × β)) (k : κ) :
    assocFind (p :: l) k = if p.1 == k then some p.2 else assocFind l k := by
  by_cases h : p.1 == k <;> simp [assocFind, List.find?_cons, h]

theorem assocFind_assocPut [BEq κ] [LawfulBEq κ] [DecidableEq κ]
    (l : List (κ × β)) (k k' : κ) (v : β) :
    assocFind (assocPut l k v) k' = if k = k' then some v else assocFind l k' := by
  induction l with
  | nil =>
    show assocFind [(k, v)] k' = _
    rw [assocFind_cons]
    by_cases h : k = k' <;> simp [assocFind, h]
  | cons p rest ih =>
    show assocFind (if p.1 == k then (k, v) :: rest else p :: assocPut rest k v) k' = _
    by_cases hp : p.1 == k
    · rw [if_pos hp, assocFind_cons, assocFind_cons]
      by_cases h : k = k'
      · simp [h]
      · have hp1 : (p.1 == k') = false := by
          rw [show p.1 = k from eq_of_beq hp]
          simp [h]
        simp [h, hp1]
    · rw [if_neg hp, assocFind_cons, ih, assocFind_cons]
      by_cases h : k = k'
      · have hp1 : (p.1 == k') = false := by
          rw [← h]
          simpa using hp
        simp [h, hp1]
      · simp [h]

theorem assocFind_assocPut_isSome [BEq κ] [LawfulBEq κ] [DecidableEq κ]
    (l : List (κ × β)) (k k' : κ) (v : β)
    (h : (assocFind l k').isSome) : (assocFind (assocPut l k v) k').isSome := by
  rw [assocFind_assocPut]
  by_cases hk : k = k' <;> simp [hk, h]

/-! ### Include/exclude lemmas -/

theorem buildSub_foldl (s : String) (l : List String) (i : Int) :
    List.foldl (fun i t => if t == s then i + 1 else if isX s t then i - 1 else i) i l
      = i + l.count s - l.count (s ++ "-") := by
  induction l generalizing i with
  | nil => simp
  | cons t rest ih =>
    rw [List.foldl_cons, List.count_cons, List.count_cons, ih]
    by_cases h1 : t = s
    · have hts : (t == s) = true := by simp [h1]
      have hd : (t == s ++ "-") = false := by
        simp only [beq_eq_false_iff_ne]
        rw [h1]
        exact self_ne_append_dash s
      simp [hts, hd]
      ring
    · have hts : (t == s) = false := by simp [h1]
      by_cases h2 : t = s ++ "-"
      · have hx : isX s t = true := by simp [isX, h2]
        have htd : (t == s ++ "-") = true := by simp [h2]
        simp [hts, hx, htd]
        ring
      · have hx : isX s t = false := by
          simp only [isX, beq_eq_false_iff_ne]
          exact fun hh => h2 hh.symm
        have htd : (t == s ++ "-") = false := by simp [h2]
        simp [hts, hx, htd]

theorem buildSub_eq_count (s : String) (l : List String) :
    buildSub s l = 1 + (l.count s : Int) - l.count (s ++ "-") := by
  rw [buildSub, buildSub_foldl]

theorem includeExcludeKept_eq_spec (l : List String) :
    includeExcludeKept l = specKeptList l := by
  induction l with
  | nil => rfl
  | cons s rest ih =>
    rw [includeExcludeKept, specKeptList, ih]
    by_cases hs : isSub s
    · simp [hs]
    · have hs' : isSub s = false := by simpa using hs
      simp only [buildSub_eq_count]
      by_cases hk : (1 : Int) + (rest.count s : Int) - rest.count (s ++ "-") > 0 <;>
        simp [hs', specKeep, hk]

end Nextgo

namespace Nextgo

theorem includeExcludeKept_cancel (xs : List String) :
    includeExcludeKept (xs ++ ["x", "y", "x-"]) = includeExcludeKept (xs ++ ["y"]) := by
  induction xs with
  | nil => decide
  | cons s rest ih =>
    rw [List.cons_append, List.cons_append]
    simp only [includeExcludeKept]
    rw [ih]
    by_cases hs : isSub s
    · simp [hs]
    · have hnotxd : s ≠ "x-" := by
        intro h
        rw [h] at hs
        exact hs (by decide)
      have hb : buildSub s (rest ++ ["x", "y", "x-"]) = buildSub s (rest ++ ["y"]) := by
        rw [buildSub_eq_count, buildSub_eq_count, List.count_append, List.count_append]
        have k1 : ("x" == s ++ "-") = false := by
          simp only [beq_eq_false_iff_ne]
          exact string_ne_append_dash s "x" (by decide)
        have k2 : ("y" == s ++ "-") = false := by
          simp only [beq_eq_false_iff_ne]
          exact string_ne_append_dash s "y" (by decide)
        have c3 : ("x-" == s) = false := by
          simp only [beq_eq_false_iff_ne]
          exact Ne.symm hnotxd
        by_cases hsx : s = "x"
        · have k3 : ("x-" == s ++ "-") = true := by rw [hsx]; decide
          have c1 : ("x" == s) = true := by rw [hsx]; decide
          have c2 : ("y" == s) = false := by rw [hsx]; decide
          simp [List.count_cons, c1, c2, c3, k1, k2, k3]
          omega
        · have k3 : ("x-" == s ++ "-") = false := by
            simp only [beq_eq_false_iff_ne]
            intro h
            have e : ("x-" : String) = "x" ++ "-" := by decide
            rw [e] at h
            exact hsx (append_dash_inj.mp h).symm
          have c1 : ("x" == s) = false := by
            simp only [beq_eq_false_iff_ne]
            exact fun h => hsx h.symm
          by_cases hsy : s = "y"
          · have c2 : ("y" == s) = true := by rw [hsy]; decide
            simp [List.count_cons, c1, c2, c3, k1, k2, k3]
          · have c2 : ("y" == s) = false := by
              simp only [beq_eq_false_iff_ne]
              exact fun h => hsy h.symm
            simp [List.count_cons, c1, c2, c3, k1, k2, k3]
      rw [hb]

theorem mergeMapping_merged (h : HandleFunc) : h.mergeMapping.mappingMerged = true := by
  rw [HandleFunc.mergeMapping]
  by_cases hm : h.mappingMerged = true
  · simp [hm]
  · cases hg : h.WithGlobal <;> simp [hm, hg]

/-- C5: directive merging is idempotent — a second `mergeMapping` on an
already-merged handler is a no-op (the whole handler state, hence method,
status, middleware order, labels and query/header binding lists, is
unchanged), guarded by the `mappingMerged` flag. -/
theorem claim5_mergeMapping_idempotent (h : HandleFunc) :
    h.mergeMapping.mergeMapping = h.mergeMapping := by
  have hm := mergeMapping_merged h
  conv_lhs => rw [HandleFunc.mergeMapping]
  simp [hm]

/-- C2: the include/exclude resolution keeps a non-removal token exactly when
the spec's occurrence count (own occurrence as `+1`, later occurrences of the
token minus later occurrences of the token with `"-"` appended) is strictly
positive, keeping first-seen order without duplicates; removal cancels the
matching predecessor (`resolve(xs ++ [x, y, x-]) = resolve(xs ++ [y])`), and
`resolve([a, b, a]) = [a, b]`. -/
theorem claim2_resolveIncludeExclude :
    (∀ arrs, resolveIncludeExclude arrs = specResolveIncludeExclude arrs) ∧
    (∀ xs, resolveIncludeExclude (xs ++ ["x", "y", "x-"]) =
        resolveIncludeExclude (xs ++ ["y"])) ∧
    resolveIncludeExclude ["a", "b", "a"] = ["a", "b"] := by
  refine ⟨fun arrs => ?_, fun xs => ?_, by decide⟩
  · rw [resolveIncludeExclude, specResolveIncludeExclude, includeExcludeKept_eq_spec]
  · rw [resolveIncludeExclude, resolveIncludeExclude, includeExcludeKept_cancel]

end Nextgo

namespace Nextgo

/-- A handler carrying both its own directive and a file-global directive,
not yet merged; used to state the merge composition facts. -/
def withBoth (h : HandleFunc) (g w : Mapping) : HandleFunc :=
  { h with
      WithGlobal := some g
      With := some w
      mappingMerged := false }

theorem applyAlias_core (cache : List (String × PackageItem)) (a : Arg) :
    (applyAlias cache a).Ty.Name = a.Ty.Name ∧
    (applyAlias cache a).Ty.pkgItem = a.Ty.pkgItem ∧
    (applyAlias cache a).Ty.FullName = a.Ty.FullName ∧
    (applyAlias cache a).Location = a.Location := by
  cases h : assocFind cache a.Package.Path with
  | none => simp [applyAlias, h]
  | some p =>
    by_cases hp : p.Alias != "" <;> simp [applyAlias, h, hp]

theorem applyAlias_EqualTo (cache : List (String × PackageItem)) (a : Arg) (t : Typ) :
    t.EqualTo (applyAlias cache a).Ty = t.EqualTo a.Ty := by
  obtain ⟨hN, hP, _, _⟩ := applyAlias_core cache a
  rw [Typ.EqualTo, Typ.EqualTo, hN]
  show (_ && (t.Path == (applyAlias cache a).Ty.pkgItem.Path)) = _
  rw [hP]
  rfl

theorem applyAlias_IsPrimitive (cache : List (String × PackageItem)) (a : Arg) :
    (applyAlias cache a).Ty.IsPrimitive = a.Ty.IsPrimitive := by
  obtain ⟨hN, _, _, _⟩ := applyAlias_core cache a
  rw [Typ.IsPrimitive, Typ.IsPrimitive, hN]

theorem classifyArg_Location (cache : List (String × PackageItem)) (hn pn : String)
    (w : Mapping) (a : Arg) (st : NameState) :
    ((classifyArg cache hn pn w a st).1).Location =
      (if markerTypeNames.contains a.Ty.FullName then a.Location
       else if w.BindQuery.any (fun t => t.EqualTo a.Ty) then "query"
       else if w.BindHeader.any (fun t => t.EqualTo a.Ty) then "header"
       else if a.Ty.IsPrimitive then "path"
       else "body") := by
  obtain ⟨hN, hP, hF, hL⟩ := applyAlias_core cache a
  by_cases h1 : markerTypeNames.contains a.Ty.FullName
  · have h1m : a.Ty.FullName ∈ markerTypeNames := by simpa using h1
    simp [classifyArg, hF, h1m, hL]
  · have h1m : a.Ty.FullName ∉ markerTypeNames := by simpa using h1
    by_cases h2 : w.BindQuery.any (fun t => t.EqualTo a.Ty)
    · have e2 : ∃ x ∈ w.BindQuery, x.EqualTo (applyAlias cache a).Ty = true := by
        simp only [applyAlias_EqualTo]
        exact List.any_eq_true.mp h2
      simp [classifyArg, hF, h1m, h2, e2]
    · have e2 : ¬ ∃ x ∈ w.BindQuery, x.EqualTo (applyAlias cache a).Ty = true := by
        simp only [applyAlias_EqualTo]
        intro hc
        exact h2 (List.any_eq_true.mpr hc)
      by_cases h3 : w.BindHeader.any (fun t => t.EqualTo a.Ty)
      · have e3 : ∃ x ∈ w.BindHeader, x.EqualTo (applyAlias cache a).Ty = true := by
          simp only [applyAlias_EqualTo]
          exact List.any_eq_true.mp h3
        simp [classifyArg, hF, h1m, h2, h3, e2, e3]
      · have e3 : ¬ ∃ x ∈ w.BindHeader, x.EqualTo (applyAlias cache a).Ty = true := by
          simp only [applyAlias_EqualTo]
          intro hc
          exact h3 (List.any_eq_true.mpr hc)
        by_cases h4 : a.Ty.IsPrimitive
        · have p4 : (applyAlias cache a).Ty.IsPrimitive = true := by
            rw [applyAlias_IsPrimitive]
            exact h4
          simp only [classifyArg, hF, p4, h4]
          by_cases h5 : pn = (applyAlias cache a).Name <;>
            simp [h1m, h2, h3, e2, e3, h5, h4]
        · have p4 : (applyAlias cache a).Ty.IsPrimitive = false := by
            rw [applyAlias_IsPrimitive]
            simpa using h4
          simp [classifyArg, hF, h1m, h2, h3, h4, e2, e3, p4]

theorem classifyArgs_Locations (cache : List (String × PackageItem)) (hn pn : String)
    (w : Mapping) (args : List Arg) (st : NameState) :
    ((classifyArgs cache hn pn w args st).1).map (fun a => a.Location) =
      args.map (fun a =>
        if markerTypeNames.contains a.Ty.FullName then a.Location
        else if w.BindQuery.any (fun t => t.EqualTo a.Ty) then "query"
        else if w.BindHeader.any (fun t => t.EqualTo a.Ty) then "header"
        else if a.Ty.IsPrimitive then "path"
        else "body") := by
  induction args generalizing st with
  | nil => rfl
  | cons a rest ih =>
    simp [classifyArgs, classifyArg_Location, ih]

/-- C3: for non-marker parameters the classifier assigns `query` when the
type matches (by package path and name) an entry of the query-binding list of
the mapping in use, else `header` on a header-binding match, else `path` when
primitive, else `body`; the mapping handed to the classifier after the merge
carries `global ++ own` binding lists; and a parameter whose (primitive) type
appears in `BindHeader` is classified `header`. -/
theorem claim3_bindingClassifier :
    (∀ cache hn pn w args st,
      ((classifyArgs cache hn pn w args st).1).map (fun a => a.Location) =
        args.map (fun a =>
          if markerTypeNames.contains a.Ty.FullName then a.Location
          else if w.BindQuery.any (fun t => t.EqualTo a.Ty) then "query"
          else if w.BindHeader.any (fun t => t.EqualTo a.Ty) then "header"
          else if a.Ty.IsPrimitive then "path"
          else "body")) ∧
    (∀ h g w,
      ((withBoth h g w).mergeMapping.With.getD {}).BindQuery
          = g.BindQuery ++ w.BindQuery ∧
      ((withBoth h g w).mergeMapping.With.getD {}).BindHeader
          = g.BindHeader ++ w.BindHeader) ∧
    ((classifyArg [] "H" "pkg"
        { BindHeader := [{ Name := "string", FullName := "string" }] }
        { Name := "tok", Ty := { Name := "string", FullName := "string" } } []).1.Location
      = "header") := by
  refine ⟨classifyArgs_Locations, fun h g w => ?_, by decide⟩
  constructor <;> simp [withBoth, HandleFunc.mergeMapping]

end Nextgo

namespace Nextgo

/-- A handler whose parameter `user` has a non-primitive struct type and
whose file path contains a segment equal to that parameter's name. -/
def argUser : Arg :=
  { Name := "user"
    Ty := { Name := "User", FullName := "pkg.User", pkgItem := { Path := "pkg" } } }

/-- The handler declared in `/api/v1/user.go` taking `argUser`. -/
def hUser : HandleFunc :=
  { Name := "GetUser"
    RequestArgs := [argUser]
    Pos := { Filename := "/api/v1/user.go", Line := 5 } }

/-- C4 counterexample: the path synthesizer rewrites the segment `user` to
the placeholder even though the same-named parameter is non-primitive, contrary
to the claim that only primitive-named segments are rewritten. -/
theorem claim4_counterexample :
    argUser.Ty.IsPrimitive = false ∧
    synthesizePath "/api" hUser = "/v1/\x7buser\x7d" ∧
    synthesizePath "/api" hUser ≠ "/v1/user" := by decide

/-- C4 as amended: a path segment equal to the name of ANY declared request
parameter — primitive or not — is rewritten to the placeholder; separately,
a non-marker parameter that matches no query/header binding and is primitive
gets Location `path`. -/
theorem claim4_amended :
    (∀ pre h, synthesizePath pre h =
      goJoinSlash ((goSplitSlash (getApiPath pre h.Pos.Filename)).map (fun s =>
        if h.RequestArgs.any (fun a => a.Name == s) then "\x7b" ++ s ++ "\x7d" else s))) ∧
    (∀ cache hn pn w a st,
      markerTypeNames.contains a.Ty.FullName = false →
      w.BindQuery.any (fun t => t.EqualTo a.Ty) = false →
      w.BindHeader.any (fun t => t.EqualTo a.Ty) = false →
      a.Ty.IsPrimitive = true →
      ((classifyArg cache hn pn w a st).1).Location = "path") := by
  constructor
  · intro pre h
    rw [synthesizePath]
    congr 1
    apply List.map_congr_left
    intro s _
    cases hf : h.RequestArgs.find? (fun a => a.Name == s) with
    | none =>
      have : h.RequestArgs.any (fun a => a.Name == s) = false := by
        rw [← find?_isSome_any, hf]
        rfl
      simp [this]
    | some a =>
      have hname : a.Name = s := by
        have := List.find?_some hf
        simpa using this
      have : h.RequestArgs.any (fun a => a.Name == s) = true := by
        rw [← find?_isSome_any, hf]
        rfl
      simp [this, hname]
  · intro cache hn pn w a st h1 h2 h3 h4
    have h1m : a.Ty.FullName ∉ markerTypeNames := by simpa using h1
    rw [classifyArg_Location]
    simp [h1m, h2, h3, h4]

/-- The primitive-typed `id` parameter used by the C4 witness. -/
def argId : Arg := { Name := "id", Ty := { Name := "string", FullName := "string" } }

theorem claim4_witness :
    ((classifyArg [] "H" "pkg" ({} : Mapping) argId []).1).Location = "path" :=
  claim4_amended.2 [] "H" "pkg" {} argId [] (by decide) (by decide) (by decide) (by decide)

end Nextgo

namespace Nextgo

theorem apisFind_assocPut_inner (t : ApisMap) (p p' m' : String)
    (inner : List (String × HandleFunc)) :
    apisFind (assocPut t p inner) p' m' =
      if p = p' then assocFind inner m' else apisFind t p' m' := by
  rw [apisFind, assocFind_assocPut]
  by_cases hp : p = p' <;> simp [hp, apisFind]

theorem apisFind_apisPut (t : ApisMap) (p m : String) (h : HandleFunc) (p' m' : String) :
    apisFind (apisPut t p m h) p' m' =
      if p = p' ∧ m = m' then some h else apisFind t p' m' := by
  cases hf : assocFind t p with
  | some inner =>
    simp only [apisPut, hf]
    rw [apisFind_assocPut_inner]
    by_cases hp : p = p'
    · rw [if_pos hp, assocFind_assocPut]
      subst hp
      by_cases hm : m = m' <;> simp [hm, apisFind, hf]
    · simp [hp]
  | none =>
    simp only [apisPut, hf]
    rw [apisFind_assocPut_inner]
    by_cases hp : p = p'
    · subst hp
      rw [if_pos rfl, assocFind_cons]
      have ht : apisFind t p m' = none := by
        rw [apisFind, hf]
        rfl
      by_cases hm : m = m' <;> simp [hm, ht, assocFind]
    · simp [hp]

theorem buildApis_append (pre : String) (hs : List HandleFunc) (h : HandleFunc) :
    buildApis pre (hs ++ [h]) =
      apisPut (buildApis pre hs) (resolveOne pre h).1 (resolveOne pre h).2.1
        (resolveOne pre h).2.2 := by
  rw [buildApis, buildApis, List.foldl_append]
  rfl

theorem buildApis_eq_getLast (pre : String) (hs : List HandleFunc) (p m : String) :
    apisFind (buildApis pre hs) p m =
      (((hs.map (resolveOne pre)).filter (fun r => r.1 == p && r.2.1 == m)).getLast?).map
        (fun r => r.2.2) := by
  induction hs using List.reverseRecOn with
  | nil => rfl
  | append_singleton hs h ih =>
    rw [buildApis_append, apisFind_apisPut, List.map_append, List.filter_append]
    by_cases hk : (resolveOne pre h).1 = p ∧ (resolveOne pre h).2.1 = m
    · have hb : ((resolveOne pre h).1 == p && (resolveOne pre h).2.1 == m) = true := by
        simp [hk.1, hk.2]
      rw [if_pos hk]
      simp [List.filter_cons, hb, getLast?_append_single]
    · have hb : ((resolveOne pre h).1 == p && (resolveOne pre h).2.1 == m) = false := by
        rcases not_and_or.mp hk with hh | hh <;> simp [hh]
      rw [if_neg hk]
      simp [List.filter_cons, hb, ih]

theorem BuildRestfulApi_eq_map (pre : String) (api : API) :
    BuildRestfulApi pre api =
      (bindHandleFuncMapping api.Handlers api.Annotations).map
        (fun hs => { Apis := buildApis pre hs, Schemas := api.Schemas }) := by
  rw [BuildRestfulApi]
  cases hb : bindHandleFuncMapping api.Handlers api.Annotations <;>
    simp [hb, Except.map, Bind.bind, Except.bind, pure, Except.pure]

/-- The two same-file handlers used to exhibit the silent route overwrite. -/
def hFdup : HandleFunc := { Name := "f", Pos := { Filename := "/api/v1/todos.go", Line := 5 } }

/-- Second handler in the same file, resolving to the same pattern and method. -/
def hGdup : HandleFunc := { Name := "g", Pos := { Filename := "/api/v1/todos.go", Line := 10 } }

/-- Input with two handlers both resolving to (/v1/todos, GET). -/
def exApiDup : API := { Handlers := [hFdup, hGdup] }

/-- C1 counterexample: two handlers resolve to the same (pattern, method)
pair, yet `BuildRestfulApi` succeeds (no ambiguous-route error) and the table
holds only the second handler: the first entry is silently overwritten. -/
theorem claim1_counterexample :
    (BuildRestfulApi "/api" exApiDup).toOption.isSome = true ∧
    (BuildRestfulApi "/api" exApiDup).toOption.map
        (fun rt => (apisFind rt.Apis "/v1/todos" "GET").map (fun h => h.Name)) =
      some (some "g") := by decide

/-- C1 as amended: route-table building never reports a collision error —
`BuildRestfulApi` fails only when binding fails; the nested-map write makes
the LAST handler (in slice order) that resolves to a given (pattern, method)
pair own the entry, silently overwriting earlier ones. -/
theorem claim1_amended :
    (∀ pre api, BuildRestfulApi pre api =
      (bindHandleFuncMapping api.Handlers api.Annotations).map
        (fun hs => { Apis := buildApis pre hs, Schemas := api.Schemas })) ∧
    (∀ pre hs p m, apisFind (buildApis pre hs) p m =
      (((hs.map (resolveOne pre)).filter
          (fun r => r.1 == p && r.2.1 == m)).getLast?).map (fun r => r.2.2)) :=
  ⟨BuildRestfulApi_eq_map, buildApis_eq_getLast⟩

end Nextgo

namespace Nextgo

theorem collectGlobals_error_of_dup (as : List Mapping) :
    ∀ (acc : List (String × Mapping)) (f : String),
      (2 ≤ as.countP (fun a => !(a.Scope == "Mapping") && a.pos.Filename == f) ∨
       (1 ≤ as.countP (fun a => !(a.Scope == "Mapping") && a.pos.Filename == f) ∧
        (assocFind acc f).isSome = true)) →
      ∃ k, ∃ (hk : k < as.length),
        collectGlobals as acc =
          .error (.multipleGlobalMapping (as.get ⟨k, hk⟩).pos.Filename
            (as.get ⟨k, hk⟩).pos.Line) ∧
        ¬ (as.get ⟨k, hk⟩).Scope = "Mapping" := by
  induction as with
  | nil =>
    intro acc f h
    rcases h with h | ⟨h, _⟩ <;> simp [List.countP_nil] at h
  | cons a rest ih =>
    intro acc f h
    rw [List.countP_cons] at h
    by_cases ha : a.Scope = "Mapping"
    · have hstep : collectGlobals (a :: rest) acc = collectGlobals rest acc := by
        rw [collectGlobals]
        simp [ha]
      have hpa : (!(a.Scope == "Mapping") && a.pos.Filename == f) = false := by
        simp [ha]
      simp only [hpa, Bool.false_eq_true, if_false, Nat.add_zero] at h
      obtain ⟨k, hk, hcg, hsk⟩ := ih acc f h
      exact ⟨k + 1, Nat.succ_lt_succ hk, by rw [hstep]; exact hcg, hsk⟩
    · by_cases hacc : (assocFind acc a.pos.Filename).isSome = true
      · have hstep : collectGlobals (a :: rest) acc =
            .error (.multipleGlobalMapping a.pos.Filename a.pos.Line) := by
          rw [collectGlobals]
          simp [ha, hacc]
        exact ⟨0, Nat.succ_pos _, hstep, ha⟩
      · have hstep : collectGlobals (a :: rest) acc =
            collectGlobals rest (assocPut acc a.pos.Filename a) := by
          rw [collectGlobals]
          simp [ha, hacc]
        have hnext : 2 ≤ rest.countP (fun a => !(a.Scope == "Mapping") && a.pos.Filename == f) ∨
            (1 ≤ rest.countP (fun a => !(a.Scope == "Mapping") && a.pos.Filename == f) ∧
             (assocFind (assocPut acc a.pos.Filename a) f).isSome = true) := by
          by_cases haf : a.pos.Filename = f
          · have hpa : (!(a.Scope == "Mapping") && a.pos.Filename == f) = true := by
              simp [ha, haf]
            simp only [hpa, eq_self_iff_true, if_true] at h
            rcases h with h | ⟨h1, h2⟩
            · right
              refine ⟨by omega, ?_⟩
              rw [← haf, assocFind_assocPut]
              simp
            · exfalso
              rw [← haf] at h2
              exact hacc h2
          · have hpa : (!(a.Scope == "Mapping") && a.pos.Filename == f) = false := by
              simp [haf]
            simp only [hpa, Bool.false_eq_true, if_false, Nat.add_zero] at h
            rcases h with h | ⟨h1, h2⟩
            · left
              exact h
            · right
              exact ⟨h1, assocFind_assocPut_isSome acc a.pos.Filename f a h2⟩
        obtain ⟨k, hk, hcg, hsk⟩ := ih (assocPut acc a.pos.Filename a) f hnext
        exact ⟨k + 1, Nat.succ_lt_succ hk, by rw [hstep]; exact hcg, hsk⟩

end Nextgo

namespace Nextgo

theorem bindHandleFuncMapping_error_of_collect (hs : List HandleFunc) (as : List Mapping)
    (e : BindError) (hc : collectGlobals as [] = .error e) :
    bindHandleFuncMapping hs as = .error e := by
  rw [bindHandleFuncMapping, hc]
  rfl

/-- C7: two or more file-scope (non-`Mapping`) annotations in the same file
make binding fail with a `multiple GlobalMapping` error carrying the file and
line of an offending file-scope annotation, and `BuildRestfulApi` then
produces no route table for that input. -/
theorem claim7_duplicateGlobal (hs : List HandleFunc) (as : List Mapping)
    (sch : List (String × String)) (pre f : String)
    (hdup : 2 ≤ as.countP (fun a => !(a.Scope == "Mapping") && a.pos.Filename == f)) :
    ∃ k, ∃ (hk : k < as.length),
      ¬ (as.get ⟨k, hk⟩).Scope = "Mapping" ∧
      bindHandleFuncMapping hs as =
        .error (.multipleGlobalMapping (as.get ⟨k, hk⟩).pos.Filename
          (as.get ⟨k, hk⟩).pos.Line) ∧
      BuildRestfulApi pre { Handlers := hs, Annotations := as, Schemas := sch } =
        .error (.multipleGlobalMapping (as.get ⟨k, hk⟩).pos.Filename
          (as.get ⟨k, hk⟩).pos.Line) := by
  obtain ⟨k, hk, hcg, hsk⟩ := collectGlobals_error_of_dup as [] f (Or.inl hdup)
  have hb := bindHandleFuncMapping_error_of_collect hs as _ hcg
  refine ⟨k, hk, hsk, hb, ?_⟩
  rw [BuildRestfulApi_eq_map]
  simp [hb, Except.map]

/-- First file-scope annotation of the duplicate-global witness. -/
def gA : Mapping := { Scope := "MappingFile", pos := { Filename := "/api/v1/a.go", Line := 2 } }

/-- Second file-scope annotation in the same file. -/
def gB : Mapping := { Scope := "MappingFile", pos := { Filename := "/api/v1/a.go", Line := 4 } }

theorem claim7_witness :
    ∃ f l, bindHandleFuncMapping [] [gA, gB] = .error (.multipleGlobalMapping f l) ∧
      BuildRestfulApi "/api" { Handlers := [], Annotations := [gA, gB] } =
        .error (.multipleGlobalMapping f l) := by
  obtain ⟨k, hk, _, hb, hB⟩ :=
    claim7_duplicateGlobal [] [gA, gB] [] "/api" "/api/v1/a.go" (by decide)
  exact ⟨_, _, hb, hB⟩

end Nextgo

namespace Nextgo

/-- C10: a `Mapping`-scope annotation that is the last node of its file by
source line — following a handler node or alone, with no handler and no other
annotation after it — is silently dropped by the adjacent-pair scan: the
`With` assignments and the error status are exactly those of the file's node
list without it, so it binds to no handler, affects no route, and produces no
error. -/
theorem claim10_danglingDirective (front : List Node) (m : Mapping)
    (hlast : front = [] ∨ ∃ idx p, front.getLast? = some (.hf idx p)) :
    assignPairs (front ++ [.mp m]) = assignPairs front := by
  induction front with
  | nil => rfl
  | cons a rest ih =>
    cases rest with
    | nil =>
      rcases hlast with h | ⟨idx, p, h⟩
      · cases h
      · have ha : a = Node.hf idx p := by
          simpa using h
        subst ha
        rfl
    | cons b rest2 =>
      have hlast2 : (b :: rest2) = [] ∨ ∃ idx p, (b :: rest2).getLast? = some (.hf idx p) := by
        rcases hlast with h | ⟨idx, p, h⟩
        · cases h
        · right
          exact ⟨idx, p, by rwa [List.getLast?_cons_cons] at h⟩
      have ih2 := ih hlast2
      cases a with
      | hf i p =>
        show assignPairs (Node.hf i p :: ((b :: rest2) ++ [Node.mp m])) =
          assignPairs (Node.hf i p :: (b :: rest2))
        cases b with
        | hf i2 p2 => simpa [assignPairs] using ih2
        | mp m2 => simpa [assignPairs] using ih2
      | mp m0 =>
        cases b with
        | mp m1 => rfl
        | hf i p =>
          show assignPairs (Node.mp m0 :: Node.hf i p :: (rest2 ++ [Node.mp m])) =
            assignPairs (Node.mp m0 :: Node.hf i p :: rest2)
          rw [assignPairs, assignPairs]
          have : assignPairs (Node.hf i p :: (rest2 ++ [Node.mp m])) =
              assignPairs (Node.hf i p :: rest2) := ih2
          rw [this]

/-- Handler node preceding the dangling annotation in the C10 witness. -/
def hNodeW : Node := Node.hf 0 { Filename := "/api/a.go", Line := 5 }

/-- The dangling trailing annotation of the C10 witness. -/
def wDangling : Mapping :=
  { Scope := "Mapping", Middleware := ["mw"], pos := { Filename := "/api/a.go", Line := 9 } }

theorem claim10_witness :
    assignPairs [hNodeW, Node.mp wDangling] = assignPairs [hNodeW] ∧
    assignPairs [hNodeW] = .ok [] :=
  ⟨claim10_danglingDirective [hNodeW] wDangling
      (Or.inr ⟨0, { Filename := "/api/a.go", Line := 5 }, by decide⟩),
    by decide⟩

end Nextgo

namespace Nextgo

/-- Directive that sets the method but no status code, for the C8 input. -/
def wPost : Mapping :=
  { Scope := "Mapping", HttpMethod := "POST"
    pos := { Filename := "/api/v1/todos.go", Line := 9 } }

/-- Handler right below `wPost` in the same file. -/
def hPost : HandleFunc :=
  { Name := "CreateTodo", Pos := { Filename := "/api/v1/todos.go", Line := 10 } }

/-- The C8 handler with its directive already bound. -/
def hPostBound : HandleFunc := { hPost with With := some wPost }

/-- C8 counterexample: with a directive present that sets the method but no
StatusCode, the handler stored in the route table keeps status code 0, not
200. -/
theorem claim8_counterexample :
    (BuildRestfulApi "/api" { Handlers := [hPost], Annotations := [wPost] }).toOption.map
        (fun rt => (apisFind rt.Apis "/v1/todos" "POST").map
          (fun h => (h.With.getD {}).HttpCode)) =
      some (some 0) ∧
    (0 : Int) ≠ 200 := by decide

/-- C8 as amended: the table's method key defaults to GET whenever the
resolved method is empty — also when the handler has no directive at all, in
which case the stored status code is 200; but with a directive present the
stored status code is exactly the directive's (0 when no StatusCode call was
parsed), and only the documentation generator renders 0 as 200. -/
theorem claim8_amended :
    (∀ pre h, h.With = none →
      (resolveOne pre h).2.1 = "GET" ∧
      ((resolveOne pre h).2.2.With.getD {}).HttpCode = 200) ∧
    (∀ pre h w, h.With = some w → w.HttpMethod = "" →
      (resolveOne pre h).2.1 = "GET") ∧
    (∀ pre h w, h.With = some w →
      ((resolveOne pre h).2.2.With.getD {}).HttpCode = w.HttpCode) ∧
    (∀ w : Mapping, w.HttpCode = 0 → docStatusCode w = 200) := by
  refine ⟨fun pre h hw => ?_, fun pre h w hw hm => ?_, fun pre h w hw => ?_, fun w hw => ?_⟩
  · constructor <;> simp [resolveOne, hw]
  · simp [resolveOne, hw, hm]
  · simp [resolveOne, hw]
  · simp [docStatusCode, hw]

/-- Handler with no directive at all, for the C8 witness. -/
def hPlain : HandleFunc :=
  { Name := "Plain", Pos := { Filename := "/api/v1/x.go", Line := 1 } }

theorem claim8_witness :
    (resolveOne "/api" hPlain).2.1 = "GET" ∧
    ((resolveOne "/api" hPlain).2.2.With.getD {}).HttpCode = 200 ∧
    ((resolveOne "/api" hPostBound).2.2.With.getD {}).HttpCode = 0 ∧
    docStatusCode { HttpMethod := "POST" } = 200 :=
  ⟨(claim8_amended.1 "/api" hPlain rfl).1,
    (claim8_amended.1 "/api" hPlain rfl).2,
    (claim8_amended.2.2.1 "/api" hPostBound wPost rfl).trans (by decide),
    claim8_amended.2.2.2 { HttpMethod := "POST" } rfl⟩

/-- Handler with one unnamed result value of struct type `Todo`, for C9. -/
def hTodoGen : HandleFunc :=
  { Name := "ListTodos"
    ResponseResult := [{ Ty := { Name := "Todo", FullName := "pkg.Todo" } }] }

/-- C9 counterexample: the synthetic-name counter survives between
generation passes — running the naming pass twice on the identical handler,
threading the process-wide counter state, yields `todo` then `todo1`: the
second invocation's output differs from the first, refuting run-to-run
identity and per-run counter scoping. -/
theorem claim9_counterexample :
    (autoNameHandleResponse hTodoGen []).1.ResponseResult.map (fun a => a.Name) = ["todo"] ∧
    (autoNameHandleResponse hTodoGen
        (autoNameHandleResponse hTodoGen []).2).1.ResponseResult.map (fun a => a.Name) =
      ["todo1"] ∧
    (["todo1"] : List String) ≠ ["todo"] := by decide

/-- C9 as amended: synthetic naming is a deterministic function of the input
AND the process-wide counter state; every request permanently increments the
counter under the key `handlerName ++ "." ++ prefix`, a fresh state yields
the bare name, and an immediate rerun from the carried-over state yields the
suffixed name — so only runs started from equal counter states coincide. -/
theorem claim9_amended :
    (∀ st fn p, assocFind (getAutoIncrementName st fn p).2 (fn ++ "." ++ p) =
      some ((assocFind st (fn ++ "." ++ p)).getD 0 + 1)) ∧
    (∀ fn p, (getAutoIncrementName [] fn p).1 = p) ∧
    (∀ st fn p, (getAutoIncrementName (getAutoIncrementName st fn p).2 fn p).1 =
      p ++ toString ((assocFind st (fn ++ "." ++ p)).getD 0 + 1)) := by
  refine ⟨fun st fn p => ?_, fun fn p => ?_, fun st fn p => ?_⟩
  · simp [getAutoIncrementName, assocFind_assocPut]
  · simp [getAutoIncrementName, assocFind]
  · simp [getAutoIncrementName, assocFind_assocPut]

end Nextgo

namespace Nextgo

theorem except_bind_ok {ε α β} (x : Except ε α) (f : α → Except ε β) (b : β)
    (h : (x >>= f) = Except.ok b) : ∃ a, x = Except.ok a ∧ f a = Except.ok b := by
  cases x with
  | error e =>
    exfalso
    rw [show ((Except.error e : Except ε α) >>= f) = Except.error e from rfl] at h
    exact Except.noConfusion h
  | ok a =>
    refine ⟨a, rfl, ?_⟩
    rw [show ((Except.ok a : Except ε α) >>= f) = f a from rfl] at h
    exact h

theorem foldl_mw_append (ms : List Mapping) (file : String) (init : List String) :
    ms.foldl (fun acc m =>
        if goHasPrefix file (goSplitDir m.pos.Filename) then acc ++ m.Middleware else acc)
      init =
      init ++ (ms.filter (fun m => goHasPrefix file (goSplitDir m.pos.Filename))).flatMap
        (fun m => m.Middleware) := by
  induction ms generalizing init with
  | nil => simp
  | cons m rest ih =>
    rw [List.foldl_cons, List.filter_cons]
    by_cases hm : goHasPrefix file (goSplitDir m.pos.Filename)
    · simp [hm, ih, List.flatMap_cons, List.append_assoc]
    · simp [hm, ih]

theorem modifyAt_getElem? (f : α → α) :
    ∀ (l : List α) (i k : Nat),
      (modifyAt i f l)[k]? = if i = k then (l[k]?).map f else l[k]? := by
  intro l
  induction l with
  | nil =>
    intro i k
    cases i <;> simp [modifyAt]
  | cons x xs ih =>
    intro i k
    cases i with
    | zero =>
      cases k with
      | zero => simp [modifyAt]
      | succ k2 => simp [modifyAt]
    | succ i2 =>
      cases k with
      | zero => simp [modifyAt]
      | succ k2 => simpa [modifyAt] using ih i2 k2

theorem applyAssigns_fields (asgs : List (Nat × Mapping)) :
    ∀ (hs : List HandleFunc) (k : Nat),
      ((asgs.foldl (fun hs im => applyAssign hs im.1 im.2) hs)[k]?).map
          (fun h => (h.ParentMiddlewares, h.Pos)) =
        (hs[k]?).map (fun h => (h.ParentMiddlewares, h.Pos)) := by
  induction asgs with
  | nil =>
    intro hs k
    rfl
  | cons a rest ih =>
    intro hs k
    rw [List.foldl_cons, ih, applyAssign, modifyAt_getElem?]
    by_cases h : a.1 = k
    · rw [if_pos h]
      cases hq : hs[k]? <;> simp [hq]
    · rw [if_neg h]

theorem bindHandleFuncMapping_ok_shape (hs : List HandleFunc) (as : List Mapping)
    (out : List HandleFunc) (hok : bindHandleFuncMapping hs as = .ok out) :
    ∃ (globals : List (String × Mapping)) (asgs : List (Nat × Mapping)),
      collectGlobals as [] = .ok globals ∧
      out = ((asgs.foldl (fun hs im => applyAssign hs im.1 im.2) hs).map (fun v =>
        let v := { v with ParentMiddlewares :=
          ((BindMiddlewareFile as).foldl (fun acc m =>
            if goHasPrefix v.Pos.Filename (goSplitDir m.pos.Filename) then acc ++ m.Middleware
            else acc) v.ParentMiddlewares) }
        match assocFind globals v.Pos.Filename with
        | some g => { v with WithGlobal := some g }
        | none => v)) := by
  rw [bindHandleFuncMapping] at hok
  obtain ⟨globals, hg, hok2⟩ := except_bind_ok _ _ _ hok
  obtain ⟨asgs, hf, hok3⟩ := except_bind_ok _ _ _ hok2
  refine ⟨globals, asgs, hg, ?_⟩
  have : Except.ok (ε := BindError) _ = Except.ok out := hok3
  exact (Except.ok.inj this).symm

end Nextgo

namespace Nextgo

theorem bind_ok_ParentMiddlewares (hs : List HandleFunc) (as : List Mapping)
    (out : List HandleFunc) (k : Nat) (hok : bindHandleFuncMapping hs as = .ok out) :
    (out[k]?).map (fun h => h.ParentMiddlewares) =
      (hs[k]?).map (fun h => h.ParentMiddlewares ++
        ((BindMiddlewareFile as).filter
          (fun m => goHasPrefix h.Pos.Filename (goSplitDir m.pos.Filename))).flatMap
          (fun m => m.Middleware)) := by
  obtain ⟨globals, asgs, hg, rfl⟩ := bindHandleFuncMapping_ok_shape hs as out hok
  rw [List.getElem?_map]
  have hfld := applyAssigns_fields asgs hs k
  cases hq : hs[k]? with
  | none =>
    rw [hq] at hfld
    cases hq2 : (asgs.foldl (fun hs im => applyAssign hs im.1 im.2) hs)[k]? with
    | none => rfl
    | some v =>
      rw [hq2] at hfld
      simp at hfld
  | some h0 =>
    rw [hq] at hfld
    cases hq2 : (asgs.foldl (fun hs im => applyAssign hs im.1 im.2) hs)[k]? with
    | none =>
      rw [hq2] at hfld
      simp at hfld
    | some v =>
      rw [hq2] at hfld
      have hfld2 : (v.ParentMiddlewares, v.Pos) = (h0.ParentMiddlewares, h0.Pos) := by
        simpa using hfld
      have hPM : v.ParentMiddlewares = h0.ParentMiddlewares := (Prod.mk.inj hfld2).1
      have hPos : v.Pos = h0.Pos := (Prod.mk.inj hfld2).2
      cases hga : assocFind globals h0.Pos.Filename <;>
        simp [hga, foldl_mw_append, hPM, hPos]

end Nextgo

namespace Nextgo

/-- Root-directory middleware declaration (`/api/middleware.go`). -/
def mwRoot : Mapping :=
  { Scope := "Mapping", Middleware := ["a"]
    pos := { Filename := "/api/middleware.go", Line := 3 } }

/-- Child-directory middleware declaration (`/api/auth/middleware.go`). -/
def mwAuth : Mapping :=
  { Scope := "Mapping", Middleware := ["b"]
    pos := { Filename := "/api/auth/middleware.go", Line := 3 } }

/-- File-global directive of `/api/auth/h.go`. -/
def gAuthFile : Mapping :=
  { Scope := "MappingFile", Middleware := ["f"]
    pos := { Filename := "/api/auth/h.go", Line := 2 } }

/-- Per-handler directive right above the handler in `/api/auth/h.go`. -/
def wOwnH : Mapping :=
  { Scope := "Mapping", Middleware := ["w"]
    pos := { Filename := "/api/auth/h.go", Line := 9 } }

/-- The handler in `/api/auth/h.go`. -/
def hAuth : HandleFunc :=
  { Name := "h", Pos := { Filename := "/api/auth/h.go", Line := 10 } }

/-- Annotation list of the C6 scenario. -/
def exMwAnns : List Mapping := [mwRoot, mwAuth, gAuthFile, wOwnH]

/-- C6 counterexample: the root declares middleware `["a"]` and the child
directory `["b"]`, so root-to-leaf order would feed
`["a", "b"] ++ ["f"] ++ ["w"]` to the include/exclude resolution — but the
middleware files are sorted by full path, `/api/auth/middleware.go` before
`/api/middleware.go`, so the handler inherits `["b", "a"]` and the resolved
chain is `["b", "a", "f", "w"]`. -/
theorem claim6_counterexample :
    (bindHandleFuncMapping [hAuth] exMwAnns).toOption.map
        (fun hs => hs.map (fun h => (h.ParentMiddlewares, h.mergeMapping.Middlewares))) =
      some [(["b", "a"], ["b", "a", "f", "w"])] ∧
    (["b", "a"] : List String) ≠ ["a", "b"] ∧
    (["b", "a", "f", "w"] : List String) ≠
      resolveIncludeExclude (["a", "b"] ++ ["f"] ++ ["w"]) := by decide

/-- C6 as amended: the sequence fed to include/exclude resolution is the
inherited middleware followed by the file-global then the handler's own
lists, where the inherited part concatenates the `middleware.go`
declarations whose directory contains the handler's file in LEXICOGRAPHIC
order of their full paths (`BindMiddlewareFile`), which need not be
root-to-leaf order. -/
theorem claim6_amended :
    (∀ h g w, ((withBoth h g w).mergeMapping).Middlewares =
      resolveIncludeExclude (h.ParentMiddlewares ++ (g.Middleware ++ w.Middleware))) ∧
    (∀ (hs : List HandleFunc) (as : List Mapping) (out : List HandleFunc) (k : Nat),
      bindHandleFuncMapping hs as = .ok out →
      (out[k]?).map (fun h => h.ParentMiddlewares) =
        (hs[k]?).map (fun h => h.ParentMiddlewares ++
          ((BindMiddlewareFile as).filter
            (fun m => goHasPrefix h.Pos.Filename (goSplitDir m.pos.Filename))).flatMap
            (fun m => m.Middleware))) :=
  ⟨fun h g w => by simp [withBoth, HandleFunc.mergeMapping],
    fun hs as out k hok => bind_ok_ParentMiddlewares hs as out k hok⟩

/-- The bound handler produced by binding the C6 scenario. -/
def hAuthBound : HandleFunc :=
  { hAuth with
      With := some wOwnH
      WithGlobal := some gAuthFile
      ParentMiddlewares := ["b", "a"] }

theorem claim6_witness :
    ((withBoth hAuth gAuthFile wOwnH).mergeMapping).Middlewares =
      resolveIncludeExclude (hAuth.ParentMiddlewares ++
        (gAuthFile.Middleware ++ wOwnH.Middleware)) ∧
    ([hAuthBound][0]?).map (fun h => h.ParentMiddlewares) =
      ([hAuth][0]?).map (fun h => h.ParentMiddlewares ++
        ((BindMiddlewareFile exMwAnns).filter
          (fun m => goHasPrefix h.Pos.Filename (goSplitDir m.pos.Filename))).flatMap
          (fun m => m.Middleware)) :=
  ⟨claim6_amended.1 hAuth gAuthFile wOwnH,
    claim6_amended.2 [hAuth] exMwAnns [hAuthBound] 0 (by decide)⟩

end Nextgo
